import Mathlib

/-
Verification of the door-access scheduling engine of the cliny repository.

The embedding models absolute time at minute granularity: a timestamp is an
integer number of minutes since a fixed local-midnight-aligned epoch whose
day 0 is a Monday (so ISO weekdays line up with `isoWeekday` below).  The
original JavaScript works on `Date` objects in local civil time and zeroes
seconds and milliseconds in every derived timestamp; civil time is modelled
as linear (no DST jumps), which is the abstraction the source itself relies
on when it adds whole days to a date.

Source files embedded:
  * src/src/utils/request-context.ts (class Scheduler: getConfigForDate,
    isInTimeFrame, _getNextFrame, _dateFromPreset, setOverwrite,
    clearOverwrite, setConfig defaulting),
  * src/src/openinghours (ITimeFrame, OpeningHourConfig),
  * src/unnamed/part_024 (OpeningHoursController._ensureAllDays),
  * src/unnamed/part_008 (Ticker.interval subscription and teardown),
  * src/unnamed/part_010 (base Cache and the LRUCache revision with
    maxAge, gcTimeout and loader).
-/

namespace Cliny

/-! ## Time model -/

/-- Calendar day index of a timestamp (floor division by the 1440 minutes of
a day); equality of day indices models equality of the formatted
YYYY-MM-DD date strings compared in the source. -/
def dayIndex (t : Int) : Int := t / 1440

/-- Midnight at the start of the day containing `t`. -/
def dayStart (t : Int) : Int := 1440 * dayIndex t

/-- Minutes since local midnight: `date.getHours() * 60 + date.getMinutes()`. -/
def minutesOfDay (t : Int) : Int := t % 1440

/-- ISO weekday 1..7 of a timestamp, as `moment(date).isoWeekday()`; epoch
day 0 is a Monday. -/
def isoWeekday (t : Int) : Int := dayIndex t % 7 + 1

/-! ## Data model of the scheduler -/

/-- Possible door states (type `DoorState` in the source).  The source
constructor `open` is called `openDoor` here because `open` is reserved in
Lean. -/
inductive DoorState where
  | lock
  | unlock
  | openDoor
deriving DecidableEq, Repr

/-- Interface `ITimeFrame`: start and end in minutes since midnight.  The
source field `end` is called `endM` here because `end` is reserved in
Lean. -/
structure ITimeFrame where
  start : Int
  endM : Int
deriving DecidableEq, Repr

/-- Interface `Delay` with before/after minute offsets. -/
structure Delay where
  before : Int
  after : Int
deriving DecidableEq, Repr

/-- A public holiday; only the calendar date matters to the scheduler
(`h.date === dateString`), so the `date` field is the day index of the
holiday. -/
structure Holiday where
  date : Int
deriving DecidableEq, Repr

/-- Interface `OverwriteConfig`. -/
structure OverwriteConfig where
  untilT : Int
  state : DoorState
deriving DecidableEq, Repr

/-- The optional `delays` record of `SchedulerConfig` (`open`/`close` minute
values, both optional); fields renamed because `open` is reserved. -/
structure Delays where
  openDelay : Option Int
  closeDelay : Option Int
deriving DecidableEq, Repr

/-- Interface `SchedulerConfig` (scheduler file format). -/
structure SchedulerConfig where
  reconfigureInterval : Option Int
  delays : Option Delays
  currentOverwrite : Option OverwriteConfig
deriving DecidableEq, Repr

/-- Interface `DoorConfig`: the evaluation result.  `untilT` (field `until` in the source; `until` is reserved in Lean) is `none` when
the source stores `null` (no next frame found); `untilISO` is a rendering of
`until` and is not modelled separately. -/
structure DoorConfig where
  state : DoorState
  untilT : Option Int
deriving DecidableEq, Repr

/-- `OpeningHourConfig`: a JavaScript object indexed by weekday number; a
missing key yields `undefined`, modelled as `none`. -/
def OpeningHourConfig : Type := Int → Option (List ITimeFrame)

/-- Getter `delayBefore`: `this.config.delays.open || 0` guarded by a check
that `delays` is present. -/
def delayBefore (sc : SchedulerConfig) : Int :=
  match sc.delays with
  | none => 0
  | some d => d.openDelay.getD 0

/-- Getter `delayAfter`: `this.config.delays.close || 0` guarded by a check
that `delays` is present. -/
def delayAfter (sc : SchedulerConfig) : Int :=
  match sc.delays with
  | none => 0
  | some d => d.closeDelay.getD 0

/-- Getter `delays` of the `Scheduler` class. -/
def delaysOf (sc : SchedulerConfig) : Delay :=
  { before := delayBefore sc, after := delayAfter sc }

/-- `Scheduler.setConfig` normalisation: a falsy `reconfigureInterval`
(absent or 0) is replaced by 5 * 60 seconds before the config is stored. -/
def setConfigDefaults (cfg : SchedulerConfig) : SchedulerConfig :=
  match cfg.reconfigureInterval with
  | none => { cfg with reconfigureInterval := some 300 }
  | some r => if r = 0 then { cfg with reconfigureInterval := some 300 } else cfg

/-! ## Scheduler algorithm -/

/-- `Scheduler.isInTimeFrame`: half-open membership of a minute-of-day in a
delay-widened frame. -/
def isInTimeFrame (delays : Delay) (minutes : Int) (frame : ITimeFrame) : Bool :=
  let fromMinutes := frame.start - delays.before
  let afterMinutes := frame.endM + delays.after
  decide (fromMinutes ≤ minutes) && decide (minutes < afterMinutes)

/-- The local helper `toDate` of `getConfigForDate`: keeps the calendar date
of `refDate`, sets the time of day from `t` (split into hours and minutes as
in the source), shifts by `dateOffset` days and finally by `minuteOffset`
minutes. -/
def toDate (t : Int) (dateOffset : Int) (minuteOffset : Int) (refDate : Int) : Int :=
  dayStart refDate + dateOffset * 1440 + (t / 60) * 60 + t % 60 + minuteOffset

/-- `Scheduler._dateFromPreset`: the reference date shifted by `offsetDays`
days with the time of day set from `minutes`. -/
def dateFromPreset (minutes : Int) (offsetDays : Int) (refDate : Int) : Int :=
  dayStart refDate + offsetDays * 1440 + (minutes / 60) * 60 + minutes % 60

/-- Loop body of `Scheduler._getNextFrame`; the `while (offset <= 7)` loop
runs at most 8 iterations, here counted down by `fuel` while `offset` counts
up exactly as in the source.  A weekday without an array entry is skipped
with a warning (the `Array.isArray` guard). -/
def getNextFrameGo (oh : OpeningHourConfig) (refDate : Int) :
    Nat → Int → Int → Option (Int × ITimeFrame)
  | 0, _, _ => none
  | fuel + 1, current, offset =>
    let nextDay := if current + 1 > 7 then 1 else current + 1
    match oh current with
    | none => getNextFrameGo oh refDate fuel nextDay (offset + 1)
    | some config =>
      match config.find? (fun frame => decide (dateFromPreset frame.start offset refDate > refDate)) with
      | some next => some (offset, next)
      | none => getNextFrameGo oh refDate fuel nextDay (offset + 1)

/-- `Scheduler._getNextFrame`: scan forward from `refDate`, day by day, for
the first frame whose (day-offset shifted) start lies strictly after
`refDate`; gives the day offset and the frame, or `none` after 8 days. -/
def getNextFrame (oh : OpeningHourConfig) (refDate : Int) : Option (Int × ITimeFrame) :=
  getNextFrameGo oh refDate 8 (isoWeekday refDate) 0

/-- The non-overwrite part of `Scheduler.getConfigForDate` (its `else`
branch): weekday frames, the holiday check, and the next-frame scan.
Returns `none` when the source throws: `this._currentConfig[weekDay]` being
`undefined` makes `currentDayConfig.find` raise a TypeError. -/
def weeklyDecision (delays : Delay) (oh : OpeningHourConfig) (holidays : List Holiday)
    (now : Int) : Option DoorConfig :=
  match oh (isoWeekday now) with
  | none => none
  | some currentDayConfig =>
    let minutes := minutesOfDay now
    let currentTimeFrame := currentDayConfig.find? (fun frame => isInTimeFrame delays minutes frame)
    let isHoliday := holidays.any (fun h => decide (h.date = dayIndex now))
    match currentTimeFrame, isHoliday with
    | some f, false =>
      some { state := DoorState.unlock, untilT := some (toDate f.endM 0 delays.after now) }
    | _, _ =>
      let refDate := if isHoliday then dayStart now + 1440 else now
      match getNextFrame oh refDate with
      | none => some { state := DoorState.lock, untilT := none }
      | some (dayOffset, untilTime) =>
        some { state := DoorState.lock
               untilT := some (toDate untilTime.start dayOffset (-delays.before) refDate) }

/-- Everything observable about one `getConfigForDate` call: the returned
`DoorConfig` (`none` when the call throws), the scheduler configuration
afterwards, and whether `setConfig(copy, true)` persisted a cleared
overwrite during the call. -/
structure EvalOutcome where
  result : Option DoorConfig
  config : SchedulerConfig
  persisted : Bool
deriving DecidableEq, Repr

/-- `Scheduler.getConfigForDate`: an unexpired overwrite wins outright; an
expired overwrite is cleared and persisted before the weekly logic runs. -/
def getConfigForDate (sc : SchedulerConfig) (oh : OpeningHourConfig)
    (holidays : List Holiday) (now : Int) : EvalOutcome :=
  match sc.currentOverwrite with
  | some ow =>
    if now < ow.untilT then
      { result := some { state := ow.state, untilT := some ow.untilT }
        config := sc
        persisted := false }
    else
      { result := weeklyDecision (delaysOf sc) oh holidays now
        config := setConfigDefaults { sc with currentOverwrite := none }
        persisted := true }
  | none =>
    { result := weeklyDecision (delaysOf sc) oh holidays now
      config := sc
      persisted := false }

/-- `Scheduler.setOverwrite`: installs the overwrite via `setConfig` and
then emits the requested state on the state subject; the second component
lists the emissions of the call in order. -/
def setOverwrite (sc : SchedulerConfig) (state : DoorState) (untilTime : Int) :
    SchedulerConfig × List DoorState :=
  let copy := setConfigDefaults { sc with currentOverwrite := some { untilT := untilTime, state := state } }
  (copy, [state])

/-- `Scheduler.clearOverwrite`: clears the overwrite via `setConfig`, then
evaluates `getConfigForDate` on the new configuration and emits the desired
state; when the evaluation throws, nothing is emitted. -/
def clearOverwrite (sc : SchedulerConfig) (oh : OpeningHourConfig)
    (holidays : List Holiday) (now : Int) : SchedulerConfig × List DoorState :=
  let cfg := setConfigDefaults { sc with currentOverwrite := none }
  match (getConfigForDate cfg oh holidays now).result with
  | some desired => (cfg, [desired.state])
  | none => (cfg, [])

/-! ## Opening-hours store (part_024) -/

/-- `OpeningHoursController._ensureAllDays`: when fewer than 7 weekday rows
exist it inserts a row for each `i` in `0..6` that is missing; gives the
weekday keys present afterwards. -/
def ensureAllDays (existing : List Int) : List Int :=
  if existing.length < 7 then
    existing ++ ((List.range 7).map (fun i => (i : Int))).filter (fun i => !existing.contains i)
  else
    existing

/-- `OpeningHoursController.getConfig` over a database whose rows carry the
given weekday keys and, per key, the given frame list (`times || []`); any
other index is absent (`undefined`). -/
def storeConfig (days : List Int) (times : Int → List ITimeFrame) : OpeningHourConfig :=
  fun d => if days.contains d then some (times d) else none

/-! ## Ticker (part_008)

One subscription to `Ticker.interval` owns a `timeout` variable (the
`setTimeout` handle for the first aligned tick) and a `timer` variable (the
`setInterval` handle started by the timeout callback).  `timeoutVar` and
`intervalVar` model those two variables, `timeoutPending` and
`intervalActive` model whether the corresponding platform timer is still
scheduled (calling `clearTimeout` on an already-fired handle is a no-op
there). -/

/-- The observable state of one `Ticker.interval` subscription. -/
structure TickerSub where
  timeoutVar : Option Nat
  timeoutPending : Bool
  intervalVar : Option Nat
  intervalActive : Bool
  ticks : Nat
  firstDelay : Int
deriving DecidableEq, Repr

/-- Subscribing: compute `secondsTillNext = interval - (seconds % interval)`
from the seconds elapsed since the start of the hour, and schedule the first
timeout; no interval timer exists yet. -/
def subscribeTicker (interval : Int) (secondsIntoHour : Int) : TickerSub :=
  { timeoutVar := some 1
    timeoutPending := true
    intervalVar := none
    intervalActive := false
    ticks := 0
    firstDelay := interval - secondsIntoHour % interval }

/-- The timeout callback fires: it ticks once and starts the interval timer.
The source callback never assigns `timeout = null`, so `timeoutVar` keeps
its (now stale, still truthy) handle. -/
def fireFirstTimeout (s : TickerSub) : TickerSub :=
  if s.timeoutPending then
    { s with timeoutPending := false
             ticks := s.ticks + 1
             intervalVar := some 2
             intervalActive := true }
  else s

/-- The teardown returned by the observable: `if (!!timeout) { clearTimeout;
timeout = null } else { clearInterval(timer) }`. -/
def unsubscribeTicker (s : TickerSub) : TickerSub :=
  match s.timeoutVar with
  | some _ => { s with timeoutPending := false, timeoutVar := none }
  | none => { s with intervalActive := false }

/-! ## Bounded TTL cache (part_010)

The base `Cache` stores entries in a JavaScript `Map`, modelled as an
association list in insertion order (`Map.set` replaces in place, otherwise
appends).  JavaScript truthiness of the cached values matters to the source
(`!!value` and `value || undefined` guards), so every operation takes the
truthiness function `tr` of the value type. -/

/-- JavaScript `Map.prototype.get`. -/
def mapGet {α β : Type} [DecidableEq α] : List (α × β) → α → Option β
  | [], _ => none
  | (k, v) :: rest, a => if k = a then some v else mapGet rest a

/-- JavaScript `Map.prototype.set`: replace in place or append. -/
def mapSet {α β : Type} [DecidableEq α] : List (α × β) → α → β → List (α × β)
  | [], a, b => [(a, b)]
  | (k, v) :: rest, a, b => if k = a then (a, b) :: rest else (k, v) :: mapSet rest a b

/-- JavaScript `Map.prototype.delete` (at most one entry per key exists). -/
def mapDelete {α β : Type} [DecidableEq α] : List (α × β) → α → List (α × β)
  | [], _ => []
  | (k, v) :: rest, a => if k = a then rest else (k, v) :: mapDelete rest a

/-- Keys of an association list, in order. -/
def keysOf {α β : Type} (m : List (α × β)) : List α := m.map Prod.fst

/-- `this._lru.splice(this._lru.indexOf(key), 1)`: remove the first
occurrence of a key from the recency list (no-op when absent). -/
def lruEraseKey {α : Type} [DecidableEq α] : List α → α → List α
  | [], _ => []
  | x :: rest, k => if x = k then rest else x :: lruEraseKey rest k

/-- The state of an `LRUCache` instance: the inherited `_byId` map, the
`_lru` recency list (most recently touched first), the `_created` creation
timestamps, and the constructor-derived settings.  `maxSize`/`maxAge` are
`none` for `Infinity`; the background gc timer only re-runs `evict` and is
not part of the state. -/
structure LRUCacheState (K V : Type) where
  byId : List (K × V)
  lru : List K
  created : List (K × Int)
  maxSize : Option Int
  maxAge : Option Int
  loader : Option (K → V)

/-- The `LRUCacheSettings` options object (gcTimeout omitted: it only
schedules extra `evict` runs). -/
structure LRUCacheSettings (K V : Type) where
  maxSize : Option Int
  maxAge : Option Int
  loader : Option (K → V)

/-- JavaScript `x || Infinity` on an optional number: `undefined` and `0`
are falsy and give `Infinity` (`none`); anything else, negative numbers
included, is kept. -/
def jsOrInfinity (o : Option Int) : Option Int :=
  match o with
  | none => none
  | some v => if v = 0 then none else some v

/-- The `LRUCache` constructor: `this._maxSize = maxSize || Infinity;
this._maxAge = maxAge || Infinity;` plus the optional loader.  It performs
no validation and cannot fail. -/
def mkLRUCache {K V : Type} (settings : LRUCacheSettings K V) : LRUCacheState K V :=
  { byId := []
    lru := []
    created := []
    maxSize := jsOrInfinity settings.maxSize
    maxAge := jsOrInfinity settings.maxAge
    loader := settings.loader }

section LRUOps

variable {K V : Type} [DecidableEq K]

/-- Base `Cache.delete`: reads the value, removes the map entry only when
the value is truthy, and returns `value || undefined`. -/
def baseDelete (tr : V → Bool) (byId : List (K × V)) (k : K) : List (K × V) × Option V :=
  match mapGet byId k with
  | some v => if tr v then (mapDelete byId k, some v) else (byId, none)
  | none => (byId, none)

/-- `LRUCache.delete`: base delete, unconditional `_created.delete`, and a
recency-list splice only when the base delete returned a value. -/
def lruDelete (tr : V → Bool) (s : LRUCacheState K V) (k : K) :
    LRUCacheState K V × Option V :=
  let p := baseDelete tr s.byId k
  let created := mapDelete s.created k
  let lru :=
    match p.2 with
    | some _ => lruEraseKey s.lru k
    | none => s.lru
  ({ s with byId := p.1, created := created, lru := lru }, p.2)

/-- `LRUCache._updateKey`: move the key to the front of the recency list. -/
def updateKey (s : LRUCacheState K V) (k : K) : LRUCacheState K V :=
  { s with lru := k :: lruEraseKey s.lru k }

/-- The expiry test `created + this._maxAge < now`; with `maxAge` equal to
`Infinity` the comparison is always false. -/
def ageExpired (maxAge : Option Int) (createdAt : Int) (now : Int) : Bool :=
  match maxAge with
  | none => false
  | some a => decide (createdAt + a < now)

/-- First phase of `LRUCache.evict`: `Array.from(this._created.entries())`
is iterated (a snapshot, passed here as the second argument) and every
expired key is deleted; deletes that return a value are collected. -/
def evictExpiredGo (tr : V → Bool) (now : Int) :
    LRUCacheState K V → List (K × Int) → LRUCacheState K V × List (K × V)
  | s, [] => (s, [])
  | s, (k, createdAt) :: rest =>
    if ageExpired s.maxAge createdAt now then
      let p := lruDelete tr s k
      let q := evictExpiredGo tr now p.1 rest
      match p.2 with
      | some v => (q.1, (k, v) :: q.2)
      | none => (q.1, q.2)
    else evictExpiredGo tr now s rest

/-- The loop guard `this._lru.length > this._maxSize`. -/
def sizeGtMax (len : Nat) (maxSize : Option Int) : Bool :=
  match maxSize with
  | none => false
  | some m => decide ((len : Int) > m)

/-- Second phase of `LRUCache.evict`: `while (this._lru.length >
this._maxSize)` delete the last (least recently touched) recency entry.  An
iteration whose delete returns no value leaves the recency list unchanged,
so the source loops forever: that divergence is the `none` result.  Each
productive iteration shortens `lru` by one, so the fuel used by
`evictOverflow` below never runs out before a real outcome. -/
def evictOverflowGo (tr : V → Bool) :
    Nat → LRUCacheState K V → Option (LRUCacheState K V × List (K × V))
  | 0, _ => none
  | fuel + 1, s =>
    if sizeGtMax s.lru.length s.maxSize then
      match s.lru.getLast? with
      | none => none
      | some lastKey =>
        let p := lruDelete tr s lastKey
        match p.2 with
        | some v =>
          match evictOverflowGo tr fuel p.1 with
          | some (s2, evs) => some (s2, (lastKey, v) :: evs)
          | none => none
        | none => none
    else some (s, [])

/-- The size-pressure loop of `LRUCache.evict` with sufficient fuel. -/
def evictOverflow (tr : V → Bool) (s : LRUCacheState K V) :
    Option (LRUCacheState K V × List (K × V)) :=
  evictOverflowGo tr (s.lru.length + 1) s

/-- `LRUCache.evict`: age-based phase over the snapshot of `_created`, then
the size-pressure loop; `none` models the source looping forever. -/
def lruEvict (tr : V → Bool) (s : LRUCacheState K V) (now : Int) :
    Option (LRUCacheState K V × List (K × V)) :=
  let p := evictExpiredGo tr now s s.created
  match evictOverflow tr p.1 with
  | some (s2, evs2) => some (s2, p.2 ++ evs2)
  | none => none

/-- `LRUCache.add` (with the default `evict = true`): set the value and the
creation time, refresh recency, then evict. -/
def lruAdd (tr : V → Bool) (s : LRUCacheState K V) (k : K) (v : V) (now : Int) :
    Option (LRUCacheState K V) :=
  let s1 := { s with byId := mapSet s.byId k v, created := mapSet s.created k now }
  let s2 := updateKey s1 k
  match lruEvict tr s2 now with
  | some (s3, _) => some s3
  | none => none

/-- Base `Cache.get`: `this._byId.get(key) || undefined` (a falsy stored
value reads back as `undefined`). -/
def jsTruthyVal (tr : V → Bool) (o : Option V) : Option V :=
  match o with
  | some v => if tr v then some v else none
  | none => none

/-- The hit-path expiry test `createdAt! + this._maxAge < now`; an
`undefined` creation time makes the comparison NaN, hence false. -/
def jsExpired (maxAge : Option Int) (createdAt : Option Int) (now : Int) : Bool :=
  match createdAt with
  | some c => ageExpired maxAge c now
  | none => false

/-- `LRUCache.get`: base read, optional loader on miss (a truthy loaded
value is added, which may evict), then the expiry check (expired entries are
deleted and reported absent) or a recency refresh. -/
def lruGet (tr : V → Bool) (s : LRUCacheState K V) (k : K) (now : Int) :
    Option (LRUCacheState K V × Option V) :=
  let v0 := jsTruthyVal tr (mapGet s.byId k)
  let c0 := mapGet s.created k
  let afterLoad : Option (LRUCacheState K V × Option V × Option Int) :=
    match v0, s.loader with
    | none, some loadFn =>
      let lv := loadFn k
      if tr lv then
        match lruAdd tr s k lv now with
        | some s1 => some (s1, some lv, mapGet s1.created k)
        | none => none
      else some (s, some lv, c0)
    | _, _ => some (s, v0, c0)
  match afterLoad with
  | none => none
  | some (s1, value, createdAt) =>
    match value with
    | some v =>
      if jsExpired s1.maxAge createdAt now then
        some ((lruDelete tr s1 k).1, none)
      else
        some (updateKey s1 k, some v)
    | none => some (s1, none)

/-- Folding `add` over a list of key-value pairs (the insertion sequence of
the eviction scenario); `none` as soon as one add diverges. -/
def insertAll (tr : V → Bool) :
    LRUCacheState K V → List (K × V) → Int → Option (LRUCacheState K V)
  | s, [], _ => some s
  | s, (k, v) :: rest, now =>
    match lruAdd tr s k v now with
    | some s2 => insertAll tr s2 rest now
    | none => none

/-- The cache state reached by inserting the pairs of `l` (all with fresh
distinct keys and truthy values, at time `now`) into an empty cache with
`maxSize = m` and no TTL, as long as no eviction has fired: the map holds
`l` in insertion order and the recency list holds the keys newest-first. -/
def chainState (l : List (K × V)) (now : Int) (m : Nat) : LRUCacheState K V :=
  { byId := l
    lru := (keysOf l).reverse
    created := l.map (fun p => (p.1, now))
    maxSize := some (m : Int)
    maxAge := none
    loader := none }

end LRUOps

/-- Modelled from the spec: `size()` — the source `Cache` class exposes no
size method; the spec's `size()` is the number of entries held by the
cache's key-to-value map. -/
def LRUCacheState.size {K V : Type} (s : LRUCacheState K V) : Nat := s.byId.length

/-- Well-formedness of a cache state, as maintained by the cache API: the
recency list and the map agree on the key set and neither holds duplicate
keys. -/
def LRUInv {K V : Type} [DecidableEq K] (s : LRUCacheState K V) : Prop :=
  s.lru.Nodup ∧ (keysOf s.byId).Nodup ∧
  (∀ k ∈ s.lru, k ∈ keysOf s.byId) ∧ (∀ k ∈ keysOf s.byId, k ∈ s.lru)

instance {K V : Type} [DecidableEq K] (s : LRUCacheState K V) : Decidable (LRUInv s) := by
  unfold LRUInv
  infer_instance

/-! ## Helper lemmas -/

/-- The `setConfig` defaulting touches only `reconfigureInterval`. -/
lemma setConfigDefaults_currentOverwrite (c : SchedulerConfig) :
    (setConfigDefaults c).currentOverwrite = c.currentOverwrite := by
  unfold setConfigDefaults
  cases c.reconfigureInterval with
  | none => rfl
  | some r =>
    by_cases hr : r = 0 <;> simp [hr]

/-- Membership characterisation of `isInTimeFrame`. -/
lemma isInTimeFrame_eq_true_iff (d : Delay) (m : Int) (f : ITimeFrame) :
    isInTimeFrame d m f = true ↔ (f.start - d.before ≤ m ∧ m < f.endM + d.after) := by
  simp [isInTimeFrame]

/-- The delay-widened interval is half-open: its own right endpoint is not a
member. -/
lemma isInTimeFrame_right_endpoint (d : Delay) (f : ITimeFrame) :
    isInTimeFrame d (f.endM + d.after) f = false := by
  simp [isInTimeFrame]

/-- With zero date offset, `toDate` places `t + minuteOffset` minutes after
the midnight of `refDate`. -/
lemma toDate_zero_offset (t minuteOffset refDate : Int) :
    toDate t 0 minuteOffset refDate = dayStart refDate + t + minuteOffset := by
  unfold toDate
  omega

/-! ## C1: overwrite precedence and lazy clearing -/

/-- C1.  With an overwrite present: if `now` is strictly before
`overwrite.until` the evaluation returns the overwrite state with
`validUntil = overwrite.until` and has no side effect, for every weekly
schedule and holiday set; otherwise the overwrite is cleared (set to `null`)
and persisted by this very evaluation and the weekly-schedule logic decides
the result. -/
theorem overwrite_precedence_and_lazy_clear
    (sc : SchedulerConfig) (oh : OpeningHourConfig) (hol : List Holiday)
    (now : Int) (ow : OverwriteConfig)
    (how : sc.currentOverwrite = some ow) :
    (now < ow.untilT →
      getConfigForDate sc oh hol now =
        { result := some { state := ow.state, untilT := some ow.untilT }
          config := sc
          persisted := false })
    ∧ (ow.untilT ≤ now →
      (getConfigForDate sc oh hol now).config.currentOverwrite = none
      ∧ (getConfigForDate sc oh hol now).persisted = true
      ∧ (getConfigForDate sc oh hol now).result = weeklyDecision (delaysOf sc) oh hol now) := by
  constructor
  · intro h
    simp [getConfigForDate, how, h]
  · intro h
    have h2 : ¬ now < ow.untilT := not_lt.mpr h
    simp [getConfigForDate, how, h2, setConfigDefaults_currentOverwrite]

/-- Witness for C1 at a concrete overwrite and evaluation times on both
sides of the deadline. -/
theorem overwrite_precedence_and_lazy_clear_witness :
    getConfigForDate ⟨none, none, some ⟨1000, DoorState.unlock⟩⟩ (fun _ => some []) [] 500 =
      { result := some { state := DoorState.unlock, untilT := some 1000 }
        config := ⟨none, none, some ⟨1000, DoorState.unlock⟩⟩
        persisted := false }
    ∧ (getConfigForDate ⟨none, none, some ⟨1000, DoorState.unlock⟩⟩ (fun _ => some []) [] 2000).config.currentOverwrite = none
    ∧ (getConfigForDate ⟨none, none, some ⟨1000, DoorState.unlock⟩⟩ (fun _ => some []) [] 2000).persisted = true := by
  refine ⟨(overwrite_precedence_and_lazy_clear _ _ _ _ _ rfl).1 (by decide),
    ((overwrite_precedence_and_lazy_clear _ _ _ _ _ rfl).2 (by decide)).1,
    ((overwrite_precedence_and_lazy_clear _ _ _ _ _ rfl).2 (by decide)).2.1⟩

/-! ## C2: half-open frame windows on regular days -/

/-- C2.  With no overwrite, the weekday entry present and `now` not on a
holiday: the evaluation succeeds, it is `unlock` exactly when the minute of
day lies in some delay-widened half-open window, an `unlock` result carries
`validUntil = frame.end + delay.after` on `now`'s date for a covering frame,
a minute covered by no window gives `lock`, and the right endpoint
`end + after` of a window is outside that window. -/
theorem frame_unlock_halfopen
    (sc : SchedulerConfig) (oh : OpeningHourConfig) (hol : List Holiday) (now : Int)
    (frames : List ITimeFrame)
    (how : sc.currentOverwrite = none)
    (hday : oh (isoWeekday now) = some frames)
    (hhol : hol.any (fun h => decide (h.date = dayIndex now)) = false) :
    ∃ dc, (getConfigForDate sc oh hol now).result = some dc
      ∧ (dc.state = DoorState.unlock ↔
          ∃ f ∈ frames, f.start - (delaysOf sc).before ≤ minutesOfDay now
            ∧ minutesOfDay now < f.endM + (delaysOf sc).after)
      ∧ (dc.state = DoorState.unlock →
          ∃ f ∈ frames, (f.start - (delaysOf sc).before ≤ minutesOfDay now
              ∧ minutesOfDay now < f.endM + (delaysOf sc).after)
            ∧ dc.untilT = some (dayStart now + f.endM + (delaysOf sc).after))
      ∧ ((¬ ∃ f ∈ frames, f.start - (delaysOf sc).before ≤ minutesOfDay now
            ∧ minutesOfDay now < f.endM + (delaysOf sc).after) → dc.state = DoorState.lock)
      ∧ (∀ f : ITimeFrame,
          isInTimeFrame (delaysOf sc) (f.endM + (delaysOf sc).after) f = false) := by
  have hres : (getConfigForDate sc oh hol now).result
      = weeklyDecision (delaysOf sc) oh hol now := by
    simp [getConfigForDate, how]
  cases hfind : frames.find? (fun frame => isInTimeFrame (delaysOf sc) (minutesOfDay now) frame) with
  | some f =>
    have hmem := List.mem_of_find?_eq_some hfind
    have hpred := (isInTimeFrame_eq_true_iff (delaysOf sc) (minutesOfDay now) f).mp
      (List.find?_some hfind)
    have hw : weeklyDecision (delaysOf sc) oh hol now
        = some ⟨DoorState.unlock, some (toDate f.endM 0 (delaysOf sc).after now)⟩ := by
      unfold weeklyDecision
      rw [hday]
      simp [hhol, hfind]
    refine ⟨⟨DoorState.unlock, some (toDate f.endM 0 (delaysOf sc).after now)⟩,
      by rw [hres, hw], ?_, ?_, ?_, fun g => isInTimeFrame_right_endpoint _ g⟩
    · exact iff_of_true rfl ⟨f, hmem, hpred⟩
    · intro _
      exact ⟨f, hmem, hpred, by rw [toDate_zero_offset]⟩
    · intro hno
      exact absurd ⟨f, hmem, hpred⟩ hno
  | none =>
    have hnone : ∀ f ∈ frames, ¬ (f.start - (delaysOf sc).before ≤ minutesOfDay now
        ∧ minutesOfDay now < f.endM + (delaysOf sc).after) := by
      intro f hf
      have hb := List.find?_eq_none.mp hfind f hf
      rw [← isInTimeFrame_eq_true_iff (delaysOf sc) (minutesOfDay now) f]
      simpa using hb
    cases hnext : getNextFrame oh now with
    | none =>
      have hw : weeklyDecision (delaysOf sc) oh hol now
          = some ⟨DoorState.lock, none⟩ := by
        unfold weeklyDecision
        rw [hday]
        simp [hhol, hfind, hnext]
      refine ⟨⟨DoorState.lock, none⟩, by rw [hres, hw], ?_, ?_, fun _ => rfl,
        fun g => isInTimeFrame_right_endpoint _ g⟩
      · refine iff_of_false (by decide) ?_
        rintro ⟨f, hf, hc⟩
        exact hnone f hf hc
      · intro h
        exact absurd h (by decide)
    | some p =>
      obtain ⟨off, fr⟩ := p
      have hw : weeklyDecision (delaysOf sc) oh hol now
          = some ⟨DoorState.lock, some (toDate fr.start off (-(delaysOf sc).before) now)⟩ := by
        unfold weeklyDecision
        rw [hday]
        simp [hhol, hfind, hnext]
      refine ⟨⟨DoorState.lock, some (toDate fr.start off (-(delaysOf sc).before) now)⟩,
        by rw [hres, hw], ?_, ?_, fun _ => rfl,
        fun g => isInTimeFrame_right_endpoint _ g⟩
      · refine iff_of_false (fun h => DoorState.noConfusion h) ?_
        rintro ⟨f, hf, hc⟩
        exact hnone f hf hc
      · intro h
        exact absurd h (fun h2 => DoorState.noConfusion h2)

/-- Witness for C2: with `delay.before = 15`, `delay.after = 30` and a
Monday frame 480..720, Monday 07:50 is unlocked until minute 750 of the
epoch day. -/
theorem frame_unlock_halfopen_witness :
    (getConfigForDate ⟨none, some ⟨some 15, some 30⟩, none⟩
      (fun d => if d = 1 then some [⟨480, 720⟩] else some []) [] 470).result
      = some ⟨DoorState.unlock, some 750⟩
    ∧ isInTimeFrame (delaysOf ⟨none, some ⟨some 15, some 30⟩, none⟩)
        ((480 : Int) + 270 + 30) ⟨(480 : Int), 480 + 270⟩ = false := by
  obtain ⟨dc, hres, hiff, huntil, hlock, hbound⟩ :=
    frame_unlock_halfopen ⟨none, some ⟨some 15, some 30⟩, none⟩
      (fun d => if d = 1 then some [⟨480, 720⟩] else some []) [] 470 [⟨480, 720⟩]
      rfl (by decide) (by decide)
  have hstate : dc.state = DoorState.unlock :=
    hiff.mpr ⟨⟨480, 720⟩, by simp, by decide⟩
  refine ⟨?_, ?_⟩
  · obtain ⟨f, hf, _, hu⟩ := huntil hstate
    have hfe : f = (⟨480, 720⟩ : ITimeFrame) := by simpa using hf
    subst hfe
    rw [hres]
    congr 1
    cases dc with
    | mk st ut =>
      simp only at hstate hu
      rw [hstate, hu]
      decide
  · exact hbound ⟨480, 750⟩

/-! ## C3: holiday handling of the next-frame scan -/

/-- Refutation of C3 as stated: Monday (day 0) and Tuesday (day 1) are both
holidays, days 1..3 carry the frame 480..720, and the evaluation at Monday
09:00 returns `lock` with `validUntil` at Tuesday 08:00 (minute 1920) — a
holiday date — not at the first non-holiday frame (Wednesday 08:00, minute
3360). -/
theorem holiday_scan_counterexample :
    (getConfigForDate ⟨none, none, none⟩
      (fun d => if d = 1 ∨ d = 2 ∨ d = 3 then some [⟨480, 720⟩] else some [])
      [⟨0⟩, ⟨1⟩] 540).result = some ⟨DoorState.lock, some 1920⟩
    ∧ ([⟨0⟩, ⟨1⟩] : List Holiday).any (fun h => decide (h.date = dayIndex 1920)) = true
    ∧ (1920 : Int) ≠ 2 * 1440 + 480 := by decide

/-- C3 as amended.  With no overwrite, the weekday entry present and `now`
on a holiday date, the evaluation returns `lock` (even inside a frame), and
`validUntil` comes from the day-by-day scan started at the beginning of the
following calendar day; the scan does not consult the holiday set, so the
frame found may itself lie on a holiday. -/
theorem holiday_lock_and_nextday_scan
    (sc : SchedulerConfig) (oh : OpeningHourConfig) (hol : List Holiday) (now : Int)
    (frames : List ITimeFrame)
    (how : sc.currentOverwrite = none)
    (hday : oh (isoWeekday now) = some frames)
    (hhol : hol.any (fun h => decide (h.date = dayIndex now)) = true) :
    (getConfigForDate sc oh hol now).result = some
      (match getNextFrame oh (dayStart now + 1440) with
       | none => { state := DoorState.lock, untilT := none }
       | some (dayOffset, untilTime) =>
         { state := DoorState.lock
           untilT := some (toDate untilTime.start dayOffset (-(delaysOf sc).before)
             (dayStart now + 1440)) }) := by
  have hres : (getConfigForDate sc oh hol now).result
      = weeklyDecision (delaysOf sc) oh hol now := by
    simp [getConfigForDate, how]
  rw [hres]
  cases hfind : frames.find? (fun frame => isInTimeFrame (delaysOf sc) (minutesOfDay now) frame) with
  | some f =>
    cases hnext : getNextFrame oh (dayStart now + 1440) with
    | none =>
      unfold weeklyDecision
      rw [hday]
      simp [hhol, hfind, hnext]
    | some p =>
      obtain ⟨off, fr⟩ := p
      unfold weeklyDecision
      rw [hday]
      simp [hhol, hfind, hnext]
  | none =>
    cases hnext : getNextFrame oh (dayStart now + 1440) with
    | none =>
      unfold weeklyDecision
      rw [hday]
      simp [hhol, hfind, hnext]
    | some p =>
      obtain ⟨off, fr⟩ := p
      unfold weeklyDecision
      rw [hday]
      simp [hhol, hfind, hnext]

/-- Witness for the amended C3 at a concrete holiday Monday. -/
theorem holiday_lock_and_nextday_scan_witness :
    (getConfigForDate ⟨none, none, none⟩
      (fun d => if d = 1 ∨ d = 2 then some [⟨480, 720⟩] else some [])
      [⟨0⟩] 600).result = some ⟨DoorState.lock, some 1920⟩ := by
  have h := holiday_lock_and_nextday_scan ⟨none, none, none⟩
    (fun d => if d = 1 ∨ d = 2 then some [⟨480, 720⟩] else some [])
    [⟨0⟩] 600 [⟨480, 720⟩] rfl (by decide) (by decide)
  rw [h]
  decide

/-! ## C4: weekday keying between store and scheduler -/

/-- C4 is a code bug.  The store's `_ensureAllDays` creates weekday rows
0..6 while the scheduler looks the weekday up as `moment` ISO weekday 1..7:
on a Sunday (epoch day 6) the scheduler reads key 7, which the store never
creates, and `getConfigForDate` throws (result `none`) instead of returning
a `lock` decision. -/
theorem sunday_weekday_key_mismatch_crash :
    isoWeekday (6 * 1440 + 720) = 7
    ∧ (ensureAllDays []).contains 7 = false
    ∧ (getConfigForDate ⟨none, none, none⟩
        (storeConfig (ensureAllDays []) (fun _ => [])) [] (6 * 1440 + 720)).result = none := by
  decide

/-! ## C10: overwrite mutations emit synchronously -/

/-- C10.  `setOverwrite` installs the overwrite and emits exactly the given
state before returning; `clearOverwrite` clears the overwrite and emits
exactly the state freshly recomputed by `getConfigForDate` on the cleared
configuration (provided that evaluation returns). -/
theorem overwrite_mutation_emits
    (sc : SchedulerConfig) (st : DoorState) (untilTime : Int)
    (oh : OpeningHourConfig) (hol : List Holiday) (now : Int) :
    (setOverwrite sc st untilTime).2 = [st]
    ∧ (setOverwrite sc st untilTime).1.currentOverwrite = some ⟨untilTime, st⟩
    ∧ (∀ d, (getConfigForDate (setConfigDefaults { sc with currentOverwrite := none }) oh hol now).result = some d →
        (clearOverwrite sc oh hol now).2 = [d.state]) := by
  refine ⟨rfl, ?_, ?_⟩
  · show (setConfigDefaults _).currentOverwrite = _
    rw [setConfigDefaults_currentOverwrite]
  · intro d hd
    simp [clearOverwrite, hd]

/-- Witness for C10 at a concrete configuration whose recomputed weekly
state is `lock`. -/
theorem overwrite_mutation_emits_witness :
    (setOverwrite ⟨some 300, none, none⟩ DoorState.unlock 99).2 = [DoorState.unlock]
    ∧ (setOverwrite ⟨some 300, none, none⟩ DoorState.unlock 99).1.currentOverwrite
        = some ⟨99, DoorState.unlock⟩
    ∧ (clearOverwrite ⟨some 300, none, none⟩ (fun _ => some []) [] 0).2 = [DoorState.lock] := by
  have h := overwrite_mutation_emits ⟨some 300, none, none⟩ DoorState.unlock 99
    (fun _ => some []) [] 0
  exact ⟨h.1, h.2.1, h.2.2 ⟨DoorState.lock, none⟩ (by decide)⟩

/-! ## C8: ticker teardown -/

/-- C8 is a code bug.  Cancelling before the first aligned tick stops the
pending timeout, but the timeout callback never nulls the `timeout`
variable: after the first tick has fired, the teardown still sees a truthy
`timeout`, calls `clearTimeout` on the already-fired handle and never
reaches `clearInterval` — the interval timer keeps running (a leaked
timer). -/
theorem ticker_unsubscribe_after_first_tick_leaks :
    (unsubscribeTicker (subscribeTicker 300 127)).timeoutPending = false
    ∧ (unsubscribeTicker (subscribeTicker 300 127)).intervalActive = false
    ∧ (fireFirstTimeout (subscribeTicker 300 127)).timeoutVar = some 1
    ∧ (unsubscribeTicker (fireFirstTimeout (subscribeTicker 300 127))).intervalActive = true := by
  decide

/-! ## C9: LRU cache constructor validation -/

/-- Refutation of C9: constructing an LRU cache with `maxSize = -1` and
`maxAge = -1` does not fail — the constructor completes and stores the
negative values verbatim, yielding an empty, apparently usable cache, and
the very first `add` is the call that goes wrong (it never returns). -/
theorem lru_constructor_no_validation_cex :
    (mkLRUCache { maxSize := some (-1), maxAge := some (-1), loader := none } :
        LRUCacheState Nat Nat).maxSize = some (-1)
    ∧ (mkLRUCache { maxSize := some (-1), maxAge := some (-1), loader := none } :
        LRUCacheState Nat Nat).maxAge = some (-1)
    ∧ (mkLRUCache { maxSize := some (-1), maxAge := some (-1), loader := none } :
        LRUCacheState Nat Nat).size = 0
    ∧ (lruAdd (fun v => decide (v ≠ 0))
        (mkLRUCache { maxSize := some (-1), maxAge := some (-1), loader := none } :
          LRUCacheState Nat Nat) 1 2 0).isSome = false := by
  decide

/-- C9 as amended.  The constructor performs no validation: negative
`maxSize`/`maxAge` are accepted and stored unchanged (only falsy `0` is
coerced to `Infinity`), and the configuration error surfaces at use — with
a negative `maxSize` the eviction loop of the first `add` (and of any
`evict`) never terminates. -/
theorem lru_negative_settings_deferred_failure {K V : Type} [DecidableEq K]
    (tr : V → Bool) (m a : Int) (hm : m < 0) (ha : a < 0) (k : K) (v : V) (now : Int) :
    (mkLRUCache { maxSize := some m, maxAge := some a, loader := none } :
        LRUCacheState K V).maxSize = some m
    ∧ (mkLRUCache { maxSize := some m, maxAge := some a, loader := none } :
        LRUCacheState K V).maxAge = some a
    ∧ lruEvict tr (mkLRUCache { maxSize := some m, maxAge := some a, loader := none } :
        LRUCacheState K V) now = none
    ∧ lruAdd tr (mkLRUCache { maxSize := some m, maxAge := some a, loader := none } :
        LRUCacheState K V) k v now = none := by
  have hm0 : m ≠ 0 := by omega
  have ha0 : a ≠ 0 := by omega
  have hmk : (mkLRUCache { maxSize := some m, maxAge := some a, loader := none } :
      LRUCacheState K V) = ⟨[], [], [], some m, some a, none⟩ := by
    simp [mkLRUCache, jsOrInfinity, hm0, ha0]
  have hgt0 : sizeGtMax 0 (some m) = true := by
    simp [sizeGtMax]
    omega
  have hgt1 : sizeGtMax 1 (some m) = true := by
    simp [sizeGtMax]
    omega
  have hexp : ageExpired (some a) now now = true := by
    simp [ageExpired]
    omega
  refine ⟨by rw [hmk], by rw [hmk], ?_, ?_⟩
  · rw [hmk]
    simp [lruEvict, evictExpiredGo, evictOverflow, evictOverflowGo, hgt0]
  · rw [hmk]
    by_cases htr : tr v = true
    · simp [lruAdd, updateKey, lruEraseKey, mapSet, lruEvict, evictExpiredGo, hexp,
        lruDelete, baseDelete, mapGet, mapDelete, htr, evictOverflow, evictOverflowGo, hgt0]
    · simp only [Bool.not_eq_true] at htr
      simp [lruAdd, updateKey, lruEraseKey, mapSet, lruEvict, evictExpiredGo, hexp,
        lruDelete, baseDelete, mapGet, mapDelete, htr, evictOverflow, evictOverflowGo,
        hgt0, hgt1]

/-- Witness for the amended C9 at `maxSize = maxAge = -1`. -/
theorem lru_negative_settings_deferred_failure_witness :
    (mkLRUCache { maxSize := some (-1), maxAge := some (-1), loader := none } :
        LRUCacheState Nat Nat).maxSize = some (-1)
    ∧ (lruAdd (fun v => decide (v ≠ 0))
        (mkLRUCache { maxSize := some (-1), maxAge := some (-1), loader := none } :
          LRUCacheState Nat Nat) 1 2 0) = none := by
  have h := lru_negative_settings_deferred_failure (K := Nat) (V := Nat)
    (fun v => decide (v ≠ 0)) (-1) (-1) (by decide) (by decide) 1 2 0
  exact ⟨h.1, h.2.2.2⟩

/-! ## Association-list and recency-list lemmas -/

section MapLemmas

variable {α β : Type} [DecidableEq α]

lemma mapGet_isSome_iff_mem (m : List (α × β)) (k : α) :
    (mapGet m k).isSome = true ↔ k ∈ keysOf m := by
  induction m with
  | nil => simp [mapGet, keysOf]
  | cons p rest ih =>
    obtain ⟨k1, v1⟩ := p
    by_cases hk : k1 = k
    · subst hk
      simp [mapGet, keysOf]
    · simp only [mapGet, if_neg hk, keysOf, List.map_cons, List.mem_cons, ih]
      have : ¬ k = k1 := fun h => hk h.symm
      simp [keysOf, this]

lemma mapGet_eq_none_of_not_mem {m : List (α × β)} {k : α} (h : k ∉ keysOf m) :
    mapGet m k = none := by
  cases hg : mapGet m k with
  | none => rfl
  | some v =>
    exact absurd ((mapGet_isSome_iff_mem m k).mp (by rw [hg]; rfl)) h

lemma keysOf_mapDelete (m : List (α × β)) (k : α) :
    keysOf (mapDelete m k) = lruEraseKey (keysOf m) k := by
  induction m with
  | nil => rfl
  | cons p rest ih =>
    obtain ⟨k1, v1⟩ := p
    by_cases hk : k1 = k
    · simp [mapDelete, hk, keysOf, lruEraseKey]
    · simp only [mapDelete, if_neg hk, keysOf, List.map_cons, lruEraseKey]
      simp only [keysOf] at ih
      rw [ih]

lemma keysOf_mapSet (m : List (α × β)) (k : α) (v : β) :
    keysOf (mapSet m k v) = if k ∈ keysOf m then keysOf m else keysOf m ++ [k] := by
  induction m with
  | nil => simp [mapSet, keysOf]
  | cons p rest ih =>
    obtain ⟨k1, v1⟩ := p
    by_cases hk : k1 = k
    · subst hk
      simp [mapSet, keysOf]
    · have hne : ¬ k = k1 := fun h => hk h.symm
      simp only [keysOf] at ih
      simp only [mapSet, if_neg hk, keysOf, List.map_cons, List.mem_cons, hne, false_or]
      by_cases hmem : k ∈ List.map Prod.fst rest
      · rw [if_pos hmem] at ih
        rw [if_pos hmem, ih]
      · rw [if_neg hmem] at ih
        rw [if_neg hmem, ih]
        rfl

lemma lruEraseKey_of_not_mem {l : List α} {k : α} (h : k ∉ l) :
    lruEraseKey l k = l := by
  induction l with
  | nil => rfl
  | cons x rest ih =>
    simp only [List.mem_cons, not_or] at h
    have : x ≠ k := fun hx => h.1 hx.symm
    simp [lruEraseKey, this, ih h.2]

lemma mem_of_mem_lruEraseKey {l : List α} {k x : α} (h : x ∈ lruEraseKey l k) :
    x ∈ l := by
  induction l with
  | nil => simpa [lruEraseKey] using h
  | cons y rest ih =>
    by_cases hy : y = k
    · subst hy
      have he : lruEraseKey (y :: rest) y = rest := by simp [lruEraseKey]
      rw [he] at h
      exact List.mem_cons_of_mem _ h
    · simp only [lruEraseKey, if_neg hy, List.mem_cons] at h
      rcases h with h | h
      · simp [h]
      · simp [ih h]

lemma not_mem_lruEraseKey_self {l : List α} {k : α} (h : l.Nodup) :
    k ∉ lruEraseKey l k := by
  induction l with
  | nil => simp [lruEraseKey]
  | cons y rest ih =>
    rcases List.nodup_cons.mp h with ⟨hy, hrest⟩
    by_cases hyk : y = k
    · subst hyk
      simpa [lruEraseKey] using hy
    · simp only [lruEraseKey, if_neg hyk, List.mem_cons, not_or]
      exact ⟨fun hk => hyk hk.symm, ih hrest⟩

lemma mem_lruEraseKey_of_ne {l : List α} {k x : α} (hne : x ≠ k) :
    x ∈ lruEraseKey l k ↔ x ∈ l := by
  induction l with
  | nil => simp [lruEraseKey]
  | cons y rest ih =>
    by_cases hy : y = k
    · subst hy
      simp [lruEraseKey, hne]
    · simp [lruEraseKey, hy, ih]

lemma nodup_lruEraseKey {l : List α} (k : α) (h : l.Nodup) :
    (lruEraseKey l k).Nodup := by
  induction l with
  | nil => simpa [lruEraseKey] using h
  | cons y rest ih =>
    rcases List.nodup_cons.mp h with ⟨hy, hrest⟩
    by_cases hyk : y = k
    · simpa [lruEraseKey, hyk] using hrest
    · simp only [lruEraseKey, if_neg hyk]
      exact List.nodup_cons.mpr ⟨fun hmem => hy (mem_of_mem_lruEraseKey hmem), ih hrest⟩

lemma length_lruEraseKey_of_mem {l : List α} {k : α} (h : k ∈ l) :
    (lruEraseKey l k).length + 1 = l.length := by
  induction l with
  | nil => simp at h
  | cons y rest ih =>
    by_cases hy : y = k
    · simp [lruEraseKey, hy]
    · rcases List.mem_cons.mp h with h1 | h1
      · exact absurd h1.symm hy
      · simp only [lruEraseKey, if_neg hy, List.length_cons]
        rw [← ih h1]

lemma lruEraseKey_append_singleton {l : List α} {k : α} (h : k ∉ l) :
    lruEraseKey (l ++ [k]) k = l := by
  induction l with
  | nil => simp [lruEraseKey]
  | cons y rest ih =>
    simp only [List.mem_cons, not_or] at h
    have : y ≠ k := fun hx => h.1 hx.symm
    simp [lruEraseKey, this, ih h.2]

lemma mapSet_append_of_not_mem {m : List (α × β)} {k : α} (v : β) (h : k ∉ keysOf m) :
    mapSet m k v = m ++ [(k, v)] := by
  induction m with
  | nil => rfl
  | cons p rest ih =>
    obtain ⟨k1, v1⟩ := p
    simp only [keysOf, List.map_cons, List.mem_cons, not_or] at h
    have : k1 ≠ k := fun hx => h.1 hx.symm
    simp [mapSet, this, ih h.2]

lemma mapGet_mapDelete_self {m : List (α × β)} {k : α} (h : (keysOf m).Nodup) :
    mapGet (mapDelete m k) k = none := by
  induction m with
  | nil => rfl
  | cons p rest ih =>
    obtain ⟨k1, v1⟩ := p
    have h2 : (k1 :: keysOf rest).Nodup := h
    have hk1 : k1 ∉ keysOf rest := (List.nodup_cons.mp h2).1
    have hrest : (keysOf rest).Nodup := (List.nodup_cons.mp h2).2
    by_cases hk : k1 = k
    · subst hk
      simpa [mapDelete] using mapGet_eq_none_of_not_mem hk1
    · simp only [mapDelete, if_neg hk, mapGet, if_neg hk]
      exact ih hrest

lemma keysOf_map_fst_pair {γ : Type} (l : List (α × β)) (c : γ) :
    keysOf (l.map (fun p => (p.1, c))) = keysOf l := by
  induction l with
  | nil => rfl
  | cons p rest ih =>
    obtain ⟨k1, v1⟩ := p
    simp only [keysOf] at ih
    simp only [List.map_cons, keysOf]
    rw [ih]

end MapLemmas

/-! ## Cache state preservation lemmas -/

section LRUInvLemmas

variable {K V : Type} [DecidableEq K]

lemma lruDelete_maxSize (tr : V → Bool) (s : LRUCacheState K V) (k : K) :
    (lruDelete tr s k).1.maxSize = s.maxSize := rfl

lemma lruDelete_state_of_not_truthy (tr : V → Bool) (s : LRUCacheState K V) (k : K)
    (h : (baseDelete tr s.byId k).2 = none) :
    lruDelete tr s k = ({ s with created := mapDelete s.created k }, none) := by
  have h1 : (baseDelete tr s.byId k).1 = s.byId := by
    cases hget : mapGet s.byId k with
    | none => simp [baseDelete, hget]
    | some v =>
      by_cases htr : tr v = true
      · exfalso
        have h2 : (baseDelete tr s.byId k).2 = some v := by
          simp [baseDelete, hget, htr]
        rw [h2] at h
        exact Option.noConfusion h
      · simp [baseDelete, hget, htr]
  simp only [lruDelete]
  rw [h, h1]

lemma lruDelete_state_of_truthy (tr : V → Bool) {s : LRUCacheState K V} {k : K} {v : V}
    (hget : mapGet s.byId k = some v) (htr : tr v = true) :
    lruDelete tr s k =
      ({ s with byId := mapDelete s.byId k
                created := mapDelete s.created k
                lru := lruEraseKey s.lru k }, some v) := by
  simp [lruDelete, baseDelete, hget, htr]

lemma lruDelete_inv (tr : V → Bool) (s : LRUCacheState K V) (k : K) (h : LRUInv s) :
    LRUInv (lruDelete tr s k).1 := by
  obtain ⟨hlnd, hknd, hs1, hs2⟩ := h
  cases hget : mapGet s.byId k with
  | none =>
    rw [lruDelete_state_of_not_truthy tr s k (by simp [baseDelete, hget])]
    exact ⟨hlnd, hknd, hs1, hs2⟩
  | some v =>
    by_cases htr : tr v = true
    · rw [lruDelete_state_of_truthy tr hget htr]
      refine ⟨nodup_lruEraseKey k hlnd, ?_, ?_, ?_⟩
      · rw [show keysOf (mapDelete s.byId k) = lruEraseKey (keysOf s.byId) k from
          keysOf_mapDelete _ _]
        exact nodup_lruEraseKey k hknd
      · intro x hx
        have hxl : x ∈ s.lru := mem_of_mem_lruEraseKey hx
        have hxk : x ≠ k := by
          intro he
          subst he
          exact not_mem_lruEraseKey_self hlnd hx
        rw [show keysOf (mapDelete s.byId k) = lruEraseKey (keysOf s.byId) k from
          keysOf_mapDelete _ _]
        exact (mem_lruEraseKey_of_ne hxk).mpr (hs1 x hxl)
      · intro x hx
        rw [show keysOf (mapDelete s.byId k) = lruEraseKey (keysOf s.byId) k from
          keysOf_mapDelete _ _] at hx
        have hxm : x ∈ keysOf s.byId := mem_of_mem_lruEraseKey hx
        have hxk : x ≠ k := by
          intro he
          subst he
          exact not_mem_lruEraseKey_self hknd hx
        exact (mem_lruEraseKey_of_ne hxk).mpr (hs2 x hxm)
    · rw [lruDelete_state_of_not_truthy tr s k (by simp [baseDelete, hget, htr])]
      exact ⟨hlnd, hknd, hs1, hs2⟩

lemma evictExpiredGo_maxSize (tr : V → Bool) (now : Int) :
    ∀ (cl : List (K × Int)) (s : LRUCacheState K V),
      (evictExpiredGo tr now s cl).1.maxSize = s.maxSize := by
  intro cl
  induction cl with
  | nil => intro s; rfl
  | cons p rest ih =>
    intro s
    obtain ⟨k, c⟩ := p
    unfold evictExpiredGo
    by_cases hexp : ageExpired s.maxAge c now = true
    · rw [if_pos hexp]
      cases hd : (lruDelete tr s k).2 <;>
        simp only [hd] <;>
        rw [ih (lruDelete tr s k).1, lruDelete_maxSize]
    · rw [if_neg hexp]
      exact ih s

lemma evictExpiredGo_inv (tr : V → Bool) (now : Int) :
    ∀ (cl : List (K × Int)) (s : LRUCacheState K V), LRUInv s →
      LRUInv (evictExpiredGo tr now s cl).1 := by
  intro cl
  induction cl with
  | nil => intro s h; exact h
  | cons p rest ih =>
    intro s h
    obtain ⟨k, c⟩ := p
    unfold evictExpiredGo
    by_cases hexp : ageExpired s.maxAge c now = true
    · rw [if_pos hexp]
      cases hd : (lruDelete tr s k).2 <;>
        simp only [hd] <;>
        exact ih (lruDelete tr s k).1 (lruDelete_inv tr s k h)
    · rw [if_neg hexp]
      exact ih s h

lemma evictOverflowGo_some (tr : V → Bool) :
    ∀ (fuel : Nat) (s s2 : LRUCacheState K V) (evs : List (K × V)),
      evictOverflowGo tr fuel s = some (s2, evs) →
      s2.maxSize = s.maxSize
      ∧ sizeGtMax s2.lru.length s2.maxSize = false
      ∧ (LRUInv s → LRUInv s2) := by
  intro fuel
  induction fuel with
  | zero =>
    intro s s2 evs h
    exact absurd h (by simp [evictOverflowGo])
  | succ n ih =>
    intro s s2 evs h
    unfold evictOverflowGo at h
    by_cases hgt : sizeGtMax s.lru.length s.maxSize = true
    · rw [if_pos hgt] at h
      cases hlast : s.lru.getLast? with
      | none =>
        rw [hlast] at h
        exact absurd h (by simp)
      | some lastKey =>
        rw [hlast] at h
        cases hd : (lruDelete tr s lastKey).2 with
        | none =>
          simp only [hd] at h
          exact absurd h (by simp)
        | some v =>
          simp only [hd] at h
          cases hrec : evictOverflowGo tr n (lruDelete tr s lastKey).1 with
          | none =>
            simp only [hrec] at h
            exact absurd h (by simp)
          | some q =>
            obtain ⟨s3, evs3⟩ := q
            simp only [hrec, Option.some.injEq, Prod.mk.injEq] at h
            obtain ⟨he1, _⟩ := h
            obtain ⟨hms, hsz, hinv⟩ := ih (lruDelete tr s lastKey).1 s3 evs3 hrec
            subst he1
            exact ⟨hms.trans (lruDelete_maxSize tr s lastKey), hsz,
              fun hi => hinv (lruDelete_inv tr s lastKey hi)⟩
    · rw [if_neg hgt] at h
      simp only [Option.some.injEq, Prod.mk.injEq] at h
      obtain ⟨he1, _⟩ := h
      subst he1
      refine ⟨rfl, ?_, fun hi => hi⟩
      simp only [Bool.not_eq_true] at hgt
      exact hgt

lemma lruEvict_some (tr : V → Bool) (s : LRUCacheState K V) (now : Int)
    (s2 : LRUCacheState K V) (evs : List (K × V))
    (h : lruEvict tr s now = some (s2, evs)) :
    s2.maxSize = s.maxSize
    ∧ sizeGtMax s2.lru.length s2.maxSize = false
    ∧ (LRUInv s → LRUInv s2) := by
  unfold lruEvict at h
  cases hov : evictOverflow tr (evictExpiredGo tr now s s.created).1 with
  | none =>
    simp only [hov] at h
    exact absurd h (by simp)
  | some q =>
    obtain ⟨s3, evs3⟩ := q
    simp only [hov, Option.some.injEq, Prod.mk.injEq] at h
    obtain ⟨he1, _⟩ := h
    subst he1
    unfold evictOverflow at hov
    obtain ⟨hms, hsz, hinv⟩ := evictOverflowGo_some tr _ _ _ _ hov
    exact ⟨hms.trans (evictExpiredGo_maxSize tr now s.created s), hsz,
      fun hi => hinv (evictExpiredGo_inv tr now s.created s hi)⟩

lemma addState_inv (s : LRUCacheState K V) (k : K) (v : V) (now : Int) (h : LRUInv s) :
    LRUInv (updateKey
      { s with byId := mapSet s.byId k v, created := mapSet s.created k now } k) := by
  obtain ⟨hlnd, hknd, hs1, hs2⟩ := h
  have hkeys := keysOf_mapSet s.byId k v
  refine ⟨?_, ?_, ?_, ?_⟩
  · refine List.nodup_cons.mpr ⟨?_, nodup_lruEraseKey k hlnd⟩
    by_cases hk : k ∈ s.lru
    · exact not_mem_lruEraseKey_self hlnd
    · rw [lruEraseKey_of_not_mem hk]
      exact hk
  · show (keysOf (mapSet s.byId k v)).Nodup
    rw [hkeys]
    by_cases hmem : k ∈ keysOf s.byId
    · rw [if_pos hmem]
      exact hknd
    · rw [if_neg hmem]
      rw [List.nodup_append]
      refine ⟨hknd, List.nodup_singleton k, ?_⟩
      intro a ha hak
      have hak2 : a = k := by simpa using hak
      exact hmem (hak2 ▸ ha)
  · intro x hx
    show x ∈ keysOf (mapSet s.byId k v)
    rw [hkeys]
    rcases List.mem_cons.mp hx with rfl | hx2
    · by_cases hmem : x ∈ keysOf s.byId
      · rw [if_pos hmem]
        exact hmem
      · rw [if_neg hmem]
        simp
    · have hxl : x ∈ s.lru := mem_of_mem_lruEraseKey hx2
      have hxm : x ∈ keysOf s.byId := hs1 x hxl
      by_cases hmem : k ∈ keysOf s.byId
      · rw [if_pos hmem]
        exact hxm
      · rw [if_neg hmem]
        exact List.mem_append_left _ hxm
  · intro x hx
    have hx2 : x ∈ keysOf (mapSet s.byId k v) := hx
    rw [hkeys] at hx2
    show x ∈ k :: lruEraseKey s.lru k
    by_cases hxk : x = k
    · subst hxk
      exact List.mem_cons_self _ _
    · have hxm : x ∈ keysOf s.byId := by
        by_cases hmem : k ∈ keysOf s.byId
        · rw [if_pos hmem] at hx2
          exact hx2
        · rw [if_neg hmem] at hx2
          rcases List.mem_append.mp hx2 with hx1 | hx1
          · exact hx1
          · exact absurd (by simpa using hx1) hxk
      exact List.mem_cons_of_mem _ ((mem_lruEraseKey_of_ne hxk).mpr (hs2 x hxm))

lemma LRUInv_length {s : LRUCacheState K V} (h : LRUInv s) :
    s.byId.length = s.lru.length := by
  obtain ⟨hlnd, hknd, hs1, hs2⟩ := h
  have h2 : (keysOf s.byId).toFinset = s.lru.toFinset := by
    apply Finset.ext
    intro x
    simp only [List.mem_toFinset]
    exact ⟨fun hx => hs2 x hx, fun hx => hs1 x hx⟩
  calc s.byId.length = (keysOf s.byId).length := (List.length_map _ _).symm
    _ = (keysOf s.byId).toFinset.card := (List.toFinset_card_of_nodup hknd).symm
    _ = s.lru.toFinset.card := by rw [h2]
    _ = s.lru.length := List.toFinset_card_of_nodup hlnd

lemma lruAdd_some (tr : V → Bool) (s : LRUCacheState K V) (k : K) (v : V) (now : Int)
    (s3 : LRUCacheState K V) (h : lruAdd tr s k v now = some s3) :
    s3.maxSize = s.maxSize
    ∧ sizeGtMax s3.lru.length s3.maxSize = false
    ∧ (LRUInv s → LRUInv s3) := by
  unfold lruAdd at h
  cases hev : lruEvict tr
    (updateKey { s with byId := mapSet s.byId k v, created := mapSet s.created k now } k) now with
  | none =>
    simp only [hev] at h
    exact absurd h (by simp)
  | some q =>
    obtain ⟨s4, evs4⟩ := q
    simp only [hev, Option.some.injEq] at h
    subst h
    obtain ⟨hms, hsz, hinv⟩ := lruEvict_some tr _ now _ _ hev
    exact ⟨hms, hsz, fun hi => hinv (addState_inv s k v now hi)⟩

end LRUInvLemmas

/-! ## Insertion-scenario lemmas -/

section LRUScenario

variable {K V : Type} [DecidableEq K]

lemma evictExpiredGo_maxAge_none (tr : V → Bool) (now : Int) (s : LRUCacheState K V)
    (hma : s.maxAge = none) :
    ∀ cl, evictExpiredGo tr now s cl = (s, []) := by
  intro cl
  induction cl with
  | nil => rfl
  | cons p rest ih =>
    obtain ⟨k, c⟩ := p
    unfold evictExpiredGo
    rw [if_neg]
    · exact ih
    · rw [hma]
      simp [ageExpired]

lemma evictOverflowGo_succ_not_over (tr : V → Bool) (n : Nat) (s : LRUCacheState K V)
    (h : sizeGtMax s.lru.length s.maxSize = false) :
    evictOverflowGo tr (n + 1) s = some (s, []) := by
  unfold evictOverflowGo
  rw [if_neg (by rw [h]; exact Bool.false_ne_true)]

lemma evictOverflow_of_not_over (tr : V → Bool) (s : LRUCacheState K V)
    (h : sizeGtMax s.lru.length s.maxSize = false) :
    evictOverflow tr s = some (s, []) := by
  unfold evictOverflow
  exact evictOverflowGo_succ_not_over tr _ s h

lemma lruEvict_maxAge_none (tr : V → Bool) (s : LRUCacheState K V) (now : Int)
    (hma : s.maxAge = none) :
    lruEvict tr s now = evictOverflow tr s := by
  simp only [lruEvict]
  rw [evictExpiredGo_maxAge_none tr now s hma s.created]
  cases hov : evictOverflow tr s with
  | none => simp [hov]
  | some q => simp [hov]

lemma chainState_lru_length (l : List (K × V)) (now : Int) (m : Nat) :
    (chainState l now m : LRUCacheState K V).lru.length = l.length := by
  simp [chainState, keysOf]

lemma chainState_maxSize (l : List (K × V)) (now : Int) (m : Nat) :
    (chainState l now m : LRUCacheState K V).maxSize = some (m : Int) := rfl

lemma chainState_not_over (l : List (K × V)) (now : Int) (m : Nat) (h : l.length ≤ m) :
    sizeGtMax (chainState l now m : LRUCacheState K V).lru.length
      (chainState l now m : LRUCacheState K V).maxSize = false := by
  rw [chainState_lru_length, chainState_maxSize]
  simp only [sizeGtMax, decide_eq_false_iff_not, not_lt]
  exact_mod_cast h

lemma chainState_over (l : List (K × V)) (now : Int) (m : Nat) (h : m < l.length) :
    sizeGtMax (chainState l now m : LRUCacheState K V).lru.length
      (chainState l now m : LRUCacheState K V).maxSize = true := by
  rw [chainState_lru_length, chainState_maxSize]
  simp only [sizeGtMax, decide_eq_true_eq]
  exact_mod_cast h

lemma updateKey_chain (now : Int) (m : Nat) (pre : List (K × V)) (k : K) (v : V)
    (hk : k ∉ keysOf pre) :
    updateKey { chainState pre now m with
        byId := mapSet (chainState pre now m : LRUCacheState K V).byId k v
        created := mapSet (chainState pre now m : LRUCacheState K V).created k now } k
      = chainState (pre ++ [(k, v)]) now m := by
  unfold updateKey chainState
  simp only [LRUCacheState.mk.injEq, and_true]
  refine ⟨mapSet_append_of_not_mem v hk, ?_, ?_⟩
  · rw [lruEraseKey_of_not_mem (by simpa using hk)]
    rw [show keysOf (pre ++ [(k, v)]) = keysOf pre ++ [k] from by simp [keysOf]]
    rw [List.reverse_append]
    rfl
  · rw [mapSet_append_of_not_mem now (by rw [keysOf_map_fst_pair]; exact hk)]
    simp

lemma lruAdd_chain_under (tr : V → Bool) (now : Int) (m : Nat) (pre : List (K × V))
    (k : K) (v : V) (hk : k ∉ keysOf pre) (hlen : pre.length + 1 ≤ m) :
    lruAdd tr (chainState pre now m) k v now = some (chainState (pre ++ [(k, v)]) now m) := by
  simp only [lruAdd]
  rw [updateKey_chain now m pre k v hk]
  rw [lruEvict_maxAge_none tr _ now rfl]
  rw [evictOverflow_of_not_over tr _ (chainState_not_over _ now m
    (by simp only [List.length_append, List.length_cons, List.length_nil]; omega))]

lemma getLast?_chain_lru (l : List (K × V)) (now : Int) (m : Nat) (k1 : K)
    (rest : List K) (h : (chainState l now m : LRUCacheState K V).lru = rest ++ [k1]) :
    (chainState l now m : LRUCacheState K V).lru.getLast? = some k1 := by
  rw [h]
  exact List.getLast?_concat rest

lemma evictOverflow_chain_step (tr : V → Bool) (now : Int) (m : Nat)
    (k1 : K) (v1 : V) (lt : List (K × V)) (k : K) (v : V)
    (hnd : (keysOf (((k1, v1) :: lt) ++ [(k, v)])).Nodup)
    (htr1 : tr v1 = true)
    (hlen : lt.length + 1 = m) :
    evictOverflow tr (chainState (((k1, v1) :: lt) ++ [(k, v)]) now m)
      = some (chainState (lt ++ [(k, v)]) now m, [(k1, v1)]) := by
  have hkeysL : keysOf (((k1, v1) :: lt) ++ [(k, v)]) = k1 :: (keysOf lt ++ [k]) := by
    simp [keysOf]
  rw [hkeysL] at hnd
  have hk1lt : k1 ∉ keysOf lt := by
    intro hmem
    exact (List.nodup_cons.mp hnd).1 (List.mem_append_left _ hmem)
  have hk1k : k1 ≠ k := by
    intro he
    apply (List.nodup_cons.mp hnd).1
    rw [he]
    exact List.mem_append_right _ (List.mem_singleton_self k)
  have hlru : (chainState (((k1, v1) :: lt) ++ [(k, v)]) now m : LRUCacheState K V).lru
      = (k :: (keysOf lt).reverse) ++ [k1] := by
    rw [show (chainState (((k1, v1) :: lt) ++ [(k, v)]) now m : LRUCacheState K V).lru
      = (keysOf (((k1, v1) :: lt) ++ [(k, v)])).reverse from rfl, hkeysL]
    simp
  have hlen2 : (chainState (((k1, v1) :: lt) ++ [(k, v)]) now m :
      LRUCacheState K V).lru.length = m + 1 := by
    rw [chainState_lru_length]
    simp only [List.length_append, List.length_cons, List.length_nil]
    omega
  have hget1 : mapGet (chainState (((k1, v1) :: lt) ++ [(k, v)]) now m :
      LRUCacheState K V).byId k1 = some v1 := by
    rw [show (chainState (((k1, v1) :: lt) ++ [(k, v)]) now m :
      LRUCacheState K V).byId = (k1, v1) :: (lt ++ [(k, v)]) from rfl]
    simp [mapGet]
  have hdel := lruDelete_state_of_truthy tr hget1 htr1
  have hdelstate : ({ chainState (((k1, v1) :: lt) ++ [(k, v)]) now m with
      byId := mapDelete (chainState (((k1, v1) :: lt) ++ [(k, v)]) now m :
        LRUCacheState K V).byId k1
      created := mapDelete (chainState (((k1, v1) :: lt) ++ [(k, v)]) now m :
        LRUCacheState K V).created k1
      lru := lruEraseKey (chainState (((k1, v1) :: lt) ++ [(k, v)]) now m :
        LRUCacheState K V).lru k1 } : LRUCacheState K V)
      = chainState (lt ++ [(k, v)]) now m := by
    unfold chainState
    simp only [LRUCacheState.mk.injEq, and_true]
    refine ⟨?_, ?_, ?_⟩
    · rw [show mapDelete (((k1, v1) :: lt) ++ [(k, v)]) k1
        = mapDelete ((k1, v1) :: (lt ++ [(k, v)])) k1 from rfl]
      simp [mapDelete]
    · have hrw : (keysOf (((k1, v1) :: lt) ++ [(k, v)])).reverse
          = k :: ((keysOf lt).reverse ++ [k1]) := by
        rw [hkeysL]
        simp
      rw [hrw]
      have hkne : k ≠ k1 := fun he => hk1k he.symm
      rw [show lruEraseKey (k :: ((keysOf lt).reverse ++ [k1])) k1
        = k :: lruEraseKey ((keysOf lt).reverse ++ [k1]) k1 from by
          simp [lruEraseKey, hkne]]
      rw [lruEraseKey_append_singleton (by simpa using hk1lt)]
      rw [show keysOf (lt ++ [(k, v)]) = keysOf lt ++ [k] from by simp [keysOf]]
      simp
    · rw [show (((k1, v1) :: lt) ++ [(k, v)]).map (fun p => (p.1, now))
        = (k1, now) :: ((lt ++ [(k, v)]).map (fun p => (p.1, now))) from by simp]
      simp [mapDelete]
  unfold evictOverflow evictOverflowGo
  rw [if_pos (chainState_over _ now m
    (by simp only [List.length_append, List.length_cons, List.length_nil]; omega))]
  rw [getLast?_chain_lru _ now m k1 _ hlru]
  simp only [hdel, hdelstate]
  rw [hlen2]
  rw [evictOverflowGo_succ_not_over tr m _ (chainState_not_over _ now m
    (by simp only [List.length_append, List.length_cons, List.length_nil]; omega))]

lemma lruAdd_chain_overflow (tr : V → Bool) (now : Int) (m : Nat)
    (k1 : K) (v1 : V) (lt : List (K × V)) (k : K) (v : V)
    (hnd : (keysOf (((k1, v1) :: lt) ++ [(k, v)])).Nodup)
    (htr1 : tr v1 = true)
    (hlen : lt.length + 1 = m) :
    lruAdd tr (chainState ((k1, v1) :: lt) now m) k v now
      = some (chainState (lt ++ [(k, v)]) now m) := by
  have hk : k ∉ keysOf ((k1, v1) :: lt) := by
    have hkeysL : keysOf (((k1, v1) :: lt) ++ [(k, v)]) = keysOf ((k1, v1) :: lt) ++ [k] := by
      simp [keysOf]
    rw [hkeysL] at hnd
    rcases List.nodup_append.mp hnd with ⟨_, _, hdisj⟩
    intro hmem
    exact hdisj hmem (List.mem_singleton_self k)
  simp only [lruAdd]
  rw [updateKey_chain now m ((k1, v1) :: lt) k v hk]
  rw [lruEvict_maxAge_none tr _ now rfl]
  rw [evictOverflow_chain_step tr now m k1 v1 lt k v hnd htr1 hlen]

lemma insertAll_append (tr : V → Bool) (now : Int) :
    ∀ (a b : List (K × V)) (s : LRUCacheState K V),
      insertAll tr s (a ++ b) now =
        match insertAll tr s a now with
        | some s2 => insertAll tr s2 b now
        | none => none := by
  intro a
  induction a with
  | nil => intro b s; rfl
  | cons p rest ih =>
    intro b s
    obtain ⟨k, v⟩ := p
    simp only [List.cons_append, insertAll]
    cases hadd : lruAdd tr s k v now with
    | none => rfl
    | some s2 => exact ih b s2

lemma insertAll_fill (tr : V → Bool) (now : Int) (m : Nat) :
    ∀ (r pre : List (K × V)),
      (keysOf (pre ++ r)).Nodup →
      pre.length + r.length ≤ m →
      insertAll tr (chainState pre now m) r now = some (chainState (pre ++ r) now m) := by
  intro r
  induction r with
  | nil =>
    intro pre _ _
    simp [insertAll]
  | cons p r2 ih =>
    intro pre hnd hlen
    obtain ⟨k, v⟩ := p
    have hk : k ∉ keysOf pre := by
      have hkeysL : keysOf (pre ++ (k, v) :: r2) = keysOf pre ++ (k :: keysOf r2) := by
        simp [keysOf]
      rw [hkeysL] at hnd
      rcases List.nodup_append.mp hnd with ⟨_, _, hdisj⟩
      intro hkpre
      exact hdisj hkpre (List.mem_cons_self _ _)
    have hlen1 : pre.length + 1 ≤ m := by
      simp only [List.length_cons] at hlen
      omega
    have hstep := lruAdd_chain_under tr now m pre k v hk hlen1
    simp only [insertAll, hstep]
    have happ : (pre ++ [(k, v)]) ++ r2 = pre ++ (k, v) :: r2 := by simp
    have hres := ih (pre ++ [(k, v)]) (by rw [happ]; exact hnd)
      (by simp only [List.length_append, List.length_cons, List.length_nil] at hlen ⊢; omega)
    rw [happ] at hres
    exact hres

end LRUScenario

/-! ## C7: TTL behaviour of get -/

/-- C7.  For an entry of key `k` (truthy value `v`, created at `t0`) in a
cache with finite `maxAge = a`: a `get` at `t0 + a + 1` reports the value
absent and removes the entry from the map (and from the creation and
recency bookkeeping); a `get` whose age does not exceed `a` moves the key to
the front of the recency list and returns the value. -/
theorem lru_ttl_expiry_and_refresh {K V : Type} [DecidableEq K]
    (tr : V → Bool) (s : LRUCacheState K V) (k : K) (v : V) (t0 a : Int)
    (hv : mapGet s.byId k = some v) (htr : tr v = true)
    (hc : mapGet s.created k = some t0) (hage : s.maxAge = some a)
    (hnd : (keysOf s.byId).Nodup) :
    (lruGet tr s k (t0 + a + 1) =
        some ({ s with byId := mapDelete s.byId k
                       created := mapDelete s.created k
                       lru := lruEraseKey s.lru k }, none)
      ∧ mapGet (mapDelete s.byId k) k = none)
    ∧ (∀ now, now ≤ t0 + a →
        lruGet tr s k now = some ({ s with lru := k :: lruEraseKey s.lru k }, some v)) := by
  have hv0 : jsTruthyVal tr (mapGet s.byId k) = some v := by
    rw [hv]
    simp [jsTruthyVal, htr]
  have hdel : lruDelete tr s k =
      ({ s with byId := mapDelete s.byId k
                created := mapDelete s.created k
                lru := lruEraseKey s.lru k }, some v) := by
    simp [lruDelete, baseDelete, hv, htr]
  have key : ∀ now : Int, lruGet tr s k now =
      (if jsExpired s.maxAge (some t0) now then some ((lruDelete tr s k).1, none)
       else some (updateKey s k, some v)) := by
    intro now
    cases hload : s.loader with
    | none => simp [lruGet, hv0, hc, hload]
    | some f => simp [lruGet, hv0, hc, hload]
  refine ⟨⟨?_, mapGet_mapDelete_self hnd⟩, ?_⟩
  · rw [key]
    have hexp : jsExpired s.maxAge (some t0) (t0 + a + 1) = true := by
      simp [jsExpired, ageExpired, hage]
    rw [if_pos hexp, hdel]
  · intro now hle
    rw [key]
    have hexp : jsExpired s.maxAge (some t0) now = false := by
      simp [jsExpired, ageExpired, hage]
      omega
    rw [if_neg (by rw [hexp]; exact Bool.false_ne_true)]
    rfl

/-- Witness for C7 on a one-entry cache with `maxAge = 50` and `t0 = 100`:
the entry expires for a get at 151 and is refreshed by a get at 150. -/
theorem lru_ttl_expiry_and_refresh_witness :
    ((lruGet (fun v => decide (v ≠ 0))
        (⟨[(1, 5)], [1], [(1, 100)], none, some 50, none⟩ : LRUCacheState Nat Nat) 1 151).map
      (fun p => (p.1.byId, p.1.lru, p.1.created, p.2))) = some ([], [], [], none)
    ∧ ((lruGet (fun v => decide (v ≠ 0))
        (⟨[(1, 5)], [1], [(1, 100)], none, some 50, none⟩ : LRUCacheState Nat Nat) 1 150).map
      (fun p => (p.1.byId, p.1.lru, p.2))) = some ([(1, 5)], [1], some 5) := by
  have h := lru_ttl_expiry_and_refresh (K := Nat) (V := Nat) (fun v => decide (v ≠ 0))
    ⟨[(1, 5)], [1], [(1, 100)], none, some 50, none⟩ 1 5 100 50
    (by decide) (by decide) (by decide) rfl (by decide)
  constructor
  · rw [show (151 : Int) = 100 + 50 + 1 from by decide, h.1.1]
    rfl
  · rw [h.2 150 (by decide)]
    rfl

/-! ## C6: size bound and LRU eviction -/

/-- C6.  First part: for every well-formed cache with finite `maxSize = m`,
`m ≥ 1`, any `add` or `evict` call that returns leaves at most `m` entries
in the cache.  Second part: inserting `m + 1` distinct truthy entries into a
fresh cache with `maxSize = m` and no TTL succeeds and leaves exactly the
last `m` inserted entries — the least recently touched (first inserted)
entry is the one evicted — so `size() = m`. -/
theorem lru_size_bound_and_eviction {K V : Type} [DecidableEq K] (tr : V → Bool) :
    (∀ (s : LRUCacheState K V) (m : Nat), LRUInv s → s.maxSize = some (m : Int) → 1 ≤ m →
      (∀ (k : K) (v : V) (now : Int) (s3 : LRUCacheState K V),
          lruAdd tr s k v now = some s3 → s3.size ≤ m)
      ∧ (∀ (now : Int) (s2 : LRUCacheState K V) (evs : List (K × V)),
          lruEvict tr s now = some (s2, evs) → s2.size ≤ m))
    ∧ (∀ (m : Nat) (l : List (K × V)) (now : Int), 1 ≤ m → l.length = m + 1 →
        (keysOf l).Nodup → (∀ p ∈ l, tr p.2 = true) →
        (insertAll tr (mkLRUCache { maxSize := some (m : Int)
                                    maxAge := none
                                    loader := none }) l now).map
            (fun s => (s.byId, s.size))
          = some (l.drop 1, m)) := by
  constructor
  · intro s m hinv hmsize hm
    constructor
    · intro k v now s3 hadd
      obtain ⟨hms, hsz, hinvf⟩ := lruAdd_some tr s k v now s3 hadd
      have hinv3 := hinvf hinv
      have hlen := LRUInv_length hinv3
      rw [hms, hmsize] at hsz
      simp only [sizeGtMax, decide_eq_false_iff_not, not_lt] at hsz
      show s3.byId.length ≤ m
      rw [hlen]
      exact_mod_cast hsz
    · intro now s2 evs hev
      obtain ⟨hms, hsz, hinvf⟩ := lruEvict_some tr s now s2 evs hev
      have hinv2 := hinvf hinv
      have hlen := LRUInv_length hinv2
      rw [hms, hmsize] at hsz
      simp only [sizeGtMax, decide_eq_false_iff_not, not_lt] at hsz
      show s2.byId.length ≤ m
      rw [hlen]
      exact_mod_cast hsz
  · intro m l now hm hlen hnd htr
    have hm0 : (m : Int) ≠ 0 := by omega
    have hmk : (mkLRUCache { maxSize := some (m : Int)
                             maxAge := none
                             loader := none } :
        LRUCacheState K V) = chainState [] now m := by
      simp [mkLRUCache, chainState, jsOrInfinity, keysOf, hm0]
    have hl0 : l ≠ [] := by
      intro h
      rw [h] at hlen
      simp at hlen
    have hsplit : l.dropLast ++ [l.getLast hl0] = l := List.dropLast_append_getLast hl0
    cases hinitc : l.dropLast with
    | nil =>
      exfalso
      have hld : l.dropLast.length = l.length - 1 := List.length_dropLast l
      rw [hinitc] at hld
      simp only [List.length_nil] at hld
      omega
    | cons p1 lt =>
      obtain ⟨k1, v1⟩ := p1
      rw [hinitc] at hsplit
      have hsplit2 : l = ((k1, v1) :: lt) ++ [l.getLast hl0] := hsplit.symm
      generalize hg : l.getLast hl0 = p2 at hsplit2
      obtain ⟨k, v⟩ := p2
      have hlenl : l.length = lt.length + 2 := by
        rw [hsplit2]
        simp
      have hlenlt : lt.length + 1 = m := by omega
      rw [hsplit2] at hnd htr
      have hkeys2 : keysOf (((k1, v1) :: lt) ++ [(k, v)])
          = keysOf ((k1, v1) :: lt) ++ [k] := by
        simp [keysOf]
      have hndl : (keysOf ((k1, v1) :: lt)).Nodup :=
        (List.nodup_append.mp (hkeys2 ▸ hnd)).1
      have htr1 : tr v1 = true :=
        htr (k1, v1) (List.mem_append_left _ (List.mem_cons_self _ _))
      have hfinal : insertAll tr (chainState [] now m) (((k1, v1) :: lt) ++ [(k, v)]) now
          = some (chainState (lt ++ [(k, v)]) now m) := by
        rw [insertAll_append tr now ((k1, v1) :: lt) [(k, v)] (chainState [] now m)]
        rw [insertAll_fill tr now m ((k1, v1) :: lt) []
          (by rw [List.nil_append]; exact hndl)
          (by simp only [List.length_nil, List.length_cons, Nat.zero_add]; omega)]
        show insertAll tr (chainState ((k1, v1) :: lt) now m) [(k, v)] now
          = some (chainState (lt ++ [(k, v)]) now m)
        simp only [insertAll]
        rw [lruAdd_chain_overflow tr now m k1 v1 lt k v hnd htr1 hlenlt]
      rw [hmk, hsplit2, hfinal]
      simp only [Option.map_some', Option.some.injEq, Prod.mk.injEq]
      constructor
      · show lt ++ [(k, v)] = (((k1, v1) :: lt) ++ [(k, v)]).drop 1
        simp
      · show (chainState (lt ++ [(k, v)]) now m : LRUCacheState K V).size = m
        simp only [LRUCacheState.size]
        show (lt ++ [(k, v)]).length = m
        simp only [List.length_append, List.length_cons, List.length_nil]
        omega

/-- Witness for C6: `maxSize = 2`, inserting keys 1, 2, 3 (truthy values)
leaves entries 2 and 3 and size 2 — key 1, the least recently touched, was
evicted. -/
theorem lru_size_bound_and_eviction_witness :
    ((insertAll (fun v => decide (v ≠ 0))
        (mkLRUCache { maxSize := some 2, maxAge := none, loader := none } :
          LRUCacheState Nat Nat) [(1, 1), (2, 2), (3, 3)] 0).map
      (fun s => (s.byId, s.size))) = some ([(2, 2), (3, 3)], 2) := by
  have h := (lru_size_bound_and_eviction (K := Nat) (V := Nat)
    (fun v => decide (v ≠ 0))).2 2 [(1, 1), (2, 2), (3, 3)] 0
    (by decide) (by decide) (by decide) (by decide)
  simpa using h

end Cliny
